import Mathlib

/-!
# Verification of `shaall.py`

A shallow embedding of the chunk planner (`listBounds`), the power-of-two
test (`isPowerOf2`) and the streaming hasher (`shaPath`) of `shaall.py`,
together with proofs of the spec's properties.

Modelling conventions:
* Python integers are `Nat` (all claimed inputs are non-negative); the
  argument of `isPowerOf2` is an `Int` so that non-positive inputs can be
  discussed.
* A raised Python exception is an `Except.error` carrying a `PlanError`
  tag: `mathDomain` for the `ValueError: math domain error` raised by
  `math.log` on a non-positive argument, `invalidConfiguration` for the
  `Exception('Block size must be a power of 2')`, and `blockSizeExhausted`
  for the failure of the halving loop to make progress (in the source this
  would surface as a division by zero once `blocksize` reaches 0).
* `int(math.log(x, 2))` is modelled as the exact truncated base-2
  logarithm `intLog2`.  The source computes it in IEEE-754 double
  arithmetic, which agrees with the exact value on every power of two
  below `2 ^ 2955` but yields `2954` for `int(math.log(2 ** 2955, 2))`;
  that floating-point divergence is outside this integer model and is
  reported separately.
* `blocksize /= 2` is modelled as integer halving, following the module's
  doctests (under true division the doctested outputs would be floats).
* The while loop of `listBounds` is modelled with explicit fuel; the
  initial fuel `max_blocksize + 1` strictly exceeds the number of
  iterations because `blocksize` strictly decreases each iteration, and
  running out of fuel is identified with the loop failing to make
  progress (`blockSizeExhausted`).
* The SHA-256 state of `shaPath` is modelled by the exact sequence of
  bytes fed to it: two runs produce identical digests iff they feed
  identical byte sequences, so theorems quantify over an arbitrary hash
  function applied to that sequence.
-/

namespace Shaall

/-- A read descriptor as built by `listBounds`: `skip` blocks to skip,
`count` blocks to read, `bs` bytes per block (the dict
`{'skip': …, 'count': …, 'bs': …}` of the source).  The byte offset of
the descriptor is `skip * bs`. -/
structure Bound where
  skip : Nat
  count : Nat
  bs : Nat
deriving Repr, DecidableEq

/-- Tags for the exceptions the planner can raise (see the module
conventions above). -/
inductive PlanError where
  | mathDomain
  | invalidConfiguration
  | blockSizeExhausted
deriving Repr, DecidableEq

/-- Fuel-driven truncated base-2 logarithm: `log2fuel f x = ⌊log₂ x⌋`
whenever `1 ≤ x ≤ f`. -/
def log2fuel : Nat → Nat → Nat
  | 0, _ => 0
  | f + 1, x => if x < 2 then 0 else log2fuel f (x / 2) + 1

/-- Exact model of `int(math.log(x, 2))` for `x ≥ 1`. -/
def intLog2 (x : Nat) : Nat :=
  log2fuel x x

/-- `isPowerOf2` from the source: `log = int(math.log(x, 2));
return 2**log == x`, with `math.log` raising the math-domain `ValueError`
on a non-positive argument. -/
def isPowerOf2 (x : Int) : Except PlanError Bool :=
  if x ≤ 0 then .error .mathDomain
  else .ok (2 ^ intLog2 x.toNat == x.toNat)

/-- Fuel-driven population count: number of set bits of `x` when
`x ≤ f`. -/
def popcountFuel : Nat → Nat → Nat
  | 0, _ => 0
  | f + 1, x => if x = 0 then 0 else x % 2 + popcountFuel f (x / 2)

/-- Number of set bits in the binary representation of `x` (used to state
the spec's characterisation of `isPowerOf2`). -/
def popcount (x : Nat) : Nat :=
  popcountFuel x x

/-- The `while bytes_left:` loop of `listBounds`.  Each iteration computes
`blocks = bytes_left // blocksize`, emits a descriptor when `blocks > 0`
(`skip = (filesize - bytes_left) // blocksize`), consumes
`blocks * blocksize` bytes and halves `blocksize`.  A `blocksize` of `0`
with bytes still left (and, equivalently, exhausted fuel) is the loop
failing to make progress. -/
def listBoundsLoop : Nat → Nat → Nat → Nat → Except PlanError (List Bound)
  | 0, _, _, _ => .error .blockSizeExhausted
  | fuel + 1, filesize, bytes_left, blocksize =>
    if bytes_left = 0 then .ok []
    else if blocksize = 0 then .error .blockSizeExhausted
    else
      let blocks := bytes_left / blocksize
      let rest := listBoundsLoop fuel filesize (bytes_left - blocks * blocksize) (blocksize / 2)
      if blocks = 0 then rest
      else
        match rest with
        | .ok l => .ok ({ skip := (filesize - bytes_left) / blocksize,
                          count := blocks, bs := blocksize } :: l)
        | .error e => .error e

/-- `listBounds(filesize, max_blocksize)` from the source: reject a
`max_blocksize` that is not a power of two, return a single whole-file
descriptor for `filesize < max_blocksize`, otherwise run the halving
loop. -/
def listBounds (filesize max_blocksize : Nat) : Except PlanError (List Bound) :=
  match isPowerOf2 (max_blocksize : Int) with
  | .error e => .error e
  | .ok false => .error .invalidConfiguration
  | .ok true =>
    if filesize < max_blocksize then
      .ok [{ skip := 0, count := 1, bs := filesize }]
    else
      listBoundsLoop (max_blocksize + 1) filesize filesize max_blocksize

/-- The bytes an ideal `dd` invocation emits for descriptor `d` of a file
whose contents are `data`: `count` blocks of `bs` bytes starting at block
`skip`, truncated at end of file. -/
def ddRead (data : List Nat) (d : Bound) : List Nat :=
  (data.drop (d.skip * d.bs)).take (d.count * d.bs)

/-- The `while True: data = p_dd.stdout.read(bound['bs'])` loop of
`shaPath`: repeatedly read up to `bs` bytes of the emitted stream and
feed them to the hash, stopping at the first empty read (`read(0)` always
returns no bytes).  The value is the concatenation of the bytes fed. -/
def readLoop : Nat → Nat → List Nat → List Nat
  | 0, _, _ => []
  | _, _, [] => []
  | fuel + 1, bs, s => if bs = 0 then [] else s.take bs ++ readLoop fuel bs (s.drop bs)

/-- `readLoop` with sufficient fuel (one more than the stream length
bounds the number of non-empty reads). -/
def readAll (bs : Nat) (s : List Nat) : List Nat :=
  readLoop (s.length + 1) bs s

/-- All bytes fed into the SHA-256 state by `shaPath`, one `dd` output
stream per descriptor, in plan order.  `source d` is the byte stream the
external reader produces for descriptor `d`. -/
def hashInput (source : Bound → List Nat) (bounds : List Bound) : List Nat :=
  (bounds.map fun d => readAll d.bs (source d)).flatten

/-- `shaPath` from the source, abstracted over the byte source: compute
the plan, then feed every descriptor's bytes into one incremental hash
state.  The returned list is the full byte sequence fed to the hash; the
digest of the run is SHA-256 of that sequence.  The source has no other
failure path: whatever bytes `dd` emits are hashed. -/
def shaPath (source : Bound → List Nat) (filesize max_blocksize : Nat) :
    Except PlanError (List Nat) :=
  match listBounds filesize max_blocksize with
  | .error e => .error e
  | .ok bounds => .ok (hashInput source bounds)

/-- Cumulative byte positions at which each descriptor's bytes are
consumed, starting from position `a`: each descriptor advances the
position by `count * bs` bytes. -/
def offsets : Nat → List Bound → List Nat
  | _, [] => []
  | a, d :: rest => a :: offsets (a + d.count * d.bs) rest

/-- The set of byte indices covered by descriptor `d`:
`[skip * bs, skip * bs + count * bs)`. -/
def coverSet (d : Bound) : Set Nat :=
  Set.Ico (d.skip * d.bs) (d.skip * d.bs + d.count * d.bs)

/-- Structural invariant of the tail of a plan: `chain l a b k` says the
descriptors of `l` tile the byte interval `[a, b)` back to back, each
descriptor's recorded byte offset `skip * bs` is its true position, each
has positive count, and the block sizes are powers of two with strictly
decreasing exponents, all below `k`. -/
def chain : List Bound → Nat → Nat → Nat → Prop
  | [], a, b, _ => a = b
  | d :: rest, a, b, k =>
      ∃ j, j < k ∧ d.bs = 2 ^ j ∧ d.skip * d.bs = a ∧ 0 < d.count ∧
        chain rest (a + d.count * d.bs) b j

/-! ## Arithmetic facts about `intLog2` and `popcount` -/

lemma log2fuel_spec : ∀ f x, 0 < x → x ≤ f →
    2 ^ log2fuel f x ≤ x ∧ x < 2 ^ (log2fuel f x + 1) := by
  intro f
  induction f with
  | zero => intro x hx hxf; omega
  | succ f ih =>
    intro x hx hxf
    by_cases h2 : x < 2
    · have hx1 : x = 1 := by omega
      subst hx1
      simp [log2fuel]
    · have hpos : 0 < x / 2 := by omega
      have hle : x / 2 ≤ f := by omega
      obtain ⟨h1, h1'⟩ := ih (x / 2) hpos hle
      simp only [log2fuel, if_neg h2]
      have e1 : 2 ^ (log2fuel f (x / 2) + 1) = 2 * 2 ^ log2fuel f (x / 2) := by ring
      have e2 : 2 ^ (log2fuel f (x / 2) + 1 + 1) = 2 * 2 ^ (log2fuel f (x / 2) + 1) := by ring
      omega

lemma intLog2_spec (x : Nat) (hx : 0 < x) :
    2 ^ intLog2 x ≤ x ∧ x < 2 ^ (intLog2 x + 1) :=
  log2fuel_spec x x hx le_rfl

lemma intLog2_pow (k : Nat) : intLog2 (2 ^ k) = k := by
  obtain ⟨h1, h2⟩ := intLog2_spec (2 ^ k) (pow_pos two_pos k)
  set L := intLog2 (2 ^ k) with hL
  have hLk : L ≤ k := by
    by_contra hc
    have : 2 ^ (k + 1) ≤ 2 ^ L := Nat.pow_le_pow_right (by omega) (by omega)
    have : 2 ^ k < 2 ^ (k + 1) := Nat.pow_lt_pow_right (by omega) (by omega)
    omega
  have hkL : k ≤ L := by
    by_contra hc
    have : 2 ^ (L + 1) ≤ 2 ^ k := Nat.pow_le_pow_right (by omega) (by omega)
    omega
  omega

lemma pow2_eq_self_iff (x : Nat) (hx : 0 < x) :
    2 ^ intLog2 x = x ↔ ∃ k, x = 2 ^ k := by
  constructor
  · intro h
    exact ⟨intLog2 x, h.symm⟩
  · rintro ⟨k, rfl⟩
    rw [intLog2_pow]

lemma popcountFuel_eq_zero : ∀ f x, x ≤ f → (popcountFuel f x = 0 ↔ x = 0) := by
  intro f
  induction f with
  | zero =>
    intro x h
    have hx : x = 0 := by omega
    subst hx
    simp [popcountFuel]
  | succ f ih =>
    intro x h
    by_cases h0 : x = 0
    · subst h0
      simp [popcountFuel]
    · have hlt : x / 2 < x := by omega
      simp only [popcountFuel, h0, if_false, iff_false]
      intro hs
      have hz : popcountFuel f (x / 2) = 0 := by omega
      have := (ih (x / 2) (by omega)).mp hz
      omega

lemma popcountFuel_eq_one : ∀ f x, x ≤ f → (popcountFuel f x = 1 ↔ ∃ k, x = 2 ^ k) := by
  intro f
  induction f with
  | zero =>
    intro x h
    have hx : x = 0 := by omega
    subst hx
    simp only [popcountFuel]
    constructor
    · intro hcontra
      exact absurd hcontra (by omega)
    · rintro ⟨k, hk⟩
      have := pow_pos (two_pos (α := Nat)) k
      omega
  | succ f ih =>
    intro x h
    by_cases h0 : x = 0
    · subst h0
      simp only [popcountFuel, if_true, eq_self_iff_true]
      constructor
      · intro hcontra
        exact absurd hcontra (by omega)
      · rintro ⟨k, hk⟩
        have := pow_pos (two_pos (α := Nat)) k
        omega
    · have hlt : x / 2 < x := by omega
      have hle : x / 2 ≤ f := by omega
      simp only [popcountFuel, if_neg h0]
      by_cases hpar : x % 2 = 0
      · rw [hpar, Nat.zero_add, ih _ hle]
        constructor
        · rintro ⟨k, hk⟩
          refine ⟨k + 1, ?_⟩
          have e : 2 ^ (k + 1) = 2 * 2 ^ k := by ring
          omega
        · rintro ⟨k, hk⟩
          cases k with
          | zero =>
            rw [pow_zero] at hk
            omega
          | succ k =>
            refine ⟨k, ?_⟩
            have e : 2 ^ (k + 1) = 2 * 2 ^ k := by ring
            omega
      · have hpar1 : x % 2 = 1 := by omega
        rw [hpar1]
        have hz := popcountFuel_eq_zero f (x / 2) hle
        constructor
        · intro h1
          have : x / 2 = 0 := hz.mp (by omega)
          exact ⟨0, by rw [pow_zero]; omega⟩
        · rintro ⟨k, hk⟩
          cases k with
          | zero =>
            rw [pow_zero] at hk
            have : x / 2 = 0 := by omega
            have := hz.mpr this
            omega
          | succ k =>
            have e : 2 ^ (k + 1) = 2 * 2 ^ k := by ring
            omega

lemma popcount_eq_one_iff (x : Nat) : popcount x = 1 ↔ ∃ k, x = 2 ^ k :=
  popcountFuel_eq_one x x le_rfl

/-! ## Basic facts about `isPowerOf2` -/

lemma isPowerOf2_natCast (n : Nat) (hn : 0 < n) :
    isPowerOf2 (n : Int) = .ok (2 ^ intLog2 n == n) := by
  unfold isPowerOf2
  rw [if_neg (by omega), Int.toNat_natCast]

lemma isPowerOf2_pow (k : Nat) : isPowerOf2 ((2 ^ k : Nat) : Int) = .ok true := by
  rw [isPowerOf2_natCast _ (pow_pos two_pos k), intLog2_pow]
  simp

/-! ## Structural lemmas about `chain` -/

lemma chain_mono {l : List Bound} {a b k k' : Nat} (h : chain l a b k) (hk : k ≤ k') :
    chain l a b k' := by
  cases l with
  | nil => exact h
  | cons d rest =>
    simp only [chain] at h ⊢
    obtain ⟨j, hj, h1, h2, h3, h4⟩ := h
    exact ⟨j, by omega, h1, h2, h3, h4⟩

lemma chain_le : ∀ (l : List Bound) {a b k : Nat}, chain l a b k → a ≤ b := by
  intro l
  induction l with
  | nil => intro a b k h; exact le_of_eq h
  | cons d rest ih =>
    intro a b k h
    simp only [chain] at h
    obtain ⟨j, _, _, _, _, h4⟩ := h
    have := ih h4
    omega

lemma chain_mem : ∀ (l : List Bound) {a b k : Nat}, chain l a b k → ∀ d ∈ l,
    (∃ j, j < k ∧ d.bs = 2 ^ j) ∧ a ≤ d.skip * d.bs ∧
      d.skip * d.bs + d.count * d.bs ≤ b ∧ 0 < d.count := by
  intro l
  induction l with
  | nil => intro a b k _ d hd; cases hd
  | cons e rest ih =>
    intro a b k h d hd
    simp only [chain] at h
    obtain ⟨j, hj, hbs, hskip, hcount, h4⟩ := h
    rcases List.mem_cons.mp hd with rfl | hd'
    · have hb := chain_le rest h4
      exact ⟨⟨j, hj, hbs⟩, le_of_eq hskip.symm, by omega, hcount⟩
    · obtain ⟨⟨j', hj', hbs'⟩, hlow, hhigh, hc⟩ := ih h4 d hd'
      exact ⟨⟨j', by omega, hbs'⟩, by omega, hhigh, hc⟩

lemma chain_length : ∀ (l : List Bound) {a b k : Nat}, chain l a b k → l.length ≤ k := by
  intro l
  induction l with
  | nil => intro a b k _; simp
  | cons d rest ih =>
    intro a b k h
    simp only [chain] at h
    obtain ⟨j, hj, _, _, _, h4⟩ := h
    have := ih h4
    simp only [List.length_cons]
    omega

lemma chain_offsets : ∀ (l : List Bound) {a b k : Nat}, chain l a b k →
    offsets a l = l.map fun d => d.skip * d.bs := by
  intro l
  induction l with
  | nil => intro a b k _; rfl
  | cons d rest ih =>
    intro a b k h
    simp only [chain] at h
    obtain ⟨j, _, _, hskip, _, h4⟩ := h
    simp only [offsets, List.map_cons, hskip]
    exact congrArg _ (ih h4)

lemma chain_pairwise_lt : ∀ (l : List Bound) {a b k : Nat}, chain l a b k →
    l.Pairwise fun d e => d.skip * d.bs < e.skip * e.bs := by
  intro l
  induction l with
  | nil => intro a b k _; exact List.Pairwise.nil
  | cons d rest ih =>
    intro a b k h
    simp only [chain] at h
    obtain ⟨j, hj, hbs, hskip, hcount, h4⟩ := h
    refine List.pairwise_cons.mpr ⟨?_, ih h4⟩
    intro e he
    obtain ⟨_, hlow, _, _⟩ := chain_mem rest h4 e he
    have hbspos : 0 < d.bs := hbs ▸ pow_pos two_pos j
    have hcpos : 0 < d.count * d.bs := Nat.mul_pos hcount hbspos
    omega

lemma chain_pairwise_bs : ∀ (l : List Bound) {a b k : Nat}, chain l a b k →
    l.Pairwise fun d e => e.bs ∣ d.bs ∧ e.bs ≤ d.bs := by
  intro l
  induction l with
  | nil => intro a b k _; exact List.Pairwise.nil
  | cons d rest ih =>
    intro a b k h
    simp only [chain] at h
    obtain ⟨j, hj, hbs, hskip, hcount, h4⟩ := h
    refine List.pairwise_cons.mpr ⟨?_, ih h4⟩
    intro e he
    obtain ⟨⟨j', hj', hbs'⟩, _, _, _⟩ := chain_mem rest h4 e he
    rw [hbs, hbs']
    exact ⟨pow_dvd_pow 2 (le_of_lt hj'),
      Nat.pow_le_pow_right (by omega) (le_of_lt hj')⟩

lemma biUnion_cons (f : Bound → Set Nat) (d : Bound) (l : List Bound) :
    (⋃ x ∈ d :: l, f x) = f d ∪ ⋃ x ∈ l, f x := by
  ext y
  simp [List.mem_cons, or_and_right, exists_or]

lemma chain_union : ∀ (l : List Bound) {a b k : Nat}, chain l a b k →
    (⋃ d ∈ l, coverSet d) = Set.Ico a b := by
  intro l
  induction l with
  | nil =>
    intro a b k h
    simp only [chain] at h
    subst h
    simp
  | cons d rest ih =>
    intro a b k h
    simp only [chain] at h
    obtain ⟨j, hj, hbs, hskip, hcount, h4⟩ := h
    rw [biUnion_cons, ih h4]
    have hd : coverSet d = Set.Ico a (a + d.count * d.bs) := by
      unfold coverSet
      rw [hskip]
    rw [hd]
    exact Set.Ico_union_Ico_eq_Ico (by omega) (chain_le rest h4)

lemma chain_disjoint : ∀ (l : List Bound) {a b k : Nat}, chain l a b k →
    l.Pairwise fun d e => Disjoint (coverSet d) (coverSet e) := by
  intro l
  induction l with
  | nil => intro a b k _; exact List.Pairwise.nil
  | cons d rest ih =>
    intro a b k h
    simp only [chain] at h
    obtain ⟨j, hj, hbs, hskip, hcount, h4⟩ := h
    refine List.pairwise_cons.mpr ⟨?_, ih h4⟩
    intro e he
    obtain ⟨_, hlow, hhigh, _⟩ := chain_mem rest h4 e he
    have hd : coverSet d = Set.Ico a (a + d.count * d.bs) := by
      unfold coverSet
      rw [hskip]
    have hsub : coverSet e ⊆ Set.Ico (a + d.count * d.bs) b :=
      Set.Ico_subset_Ico hlow hhigh
    rw [hd]
    exact Set.Ico_disjoint_Ico_same.mono_right hsub

lemma chain_flatten (data : List Nat) : ∀ (l : List Bound) {a b k : Nat}, chain l a b k →
    (l.map fun d => ddRead data d).flatten = (data.drop a).take (b - a) := by
  intro l
  induction l with
  | nil =>
    intro a b k h
    simp only [chain] at h
    subst h
    simp
  | cons d rest ih =>
    intro a b k h
    simp only [chain] at h
    obtain ⟨j, hj, hbs, hskip, hcount, h4⟩ := h
    have hab := chain_le rest h4
    simp only [List.map_cons, List.flatten_cons]
    rw [ih h4]
    unfold ddRead
    rw [hskip]
    have h1 : b - a = d.count * d.bs + (b - (a + d.count * d.bs)) := by omega
    rw [h1, List.take_add, List.drop_drop]

/-! ## The halving loop: termination and structure -/

lemma listBoundsLoop_zero_left (fuel filesize blocksize : Nat) (hf : 0 < fuel) :
    listBoundsLoop fuel filesize 0 blocksize = .ok [] := by
  cases fuel with
  | zero => omega
  | succ f => simp [listBoundsLoop]

lemma listBoundsLoop_step (fuel fs bl bs : Nat) (hbl : bl ≠ 0) (hbs : bs ≠ 0) :
    listBoundsLoop (fuel + 1) fs bl bs =
      if bl / bs = 0 then listBoundsLoop fuel fs bl (bs / 2)
      else
        match listBoundsLoop fuel fs (bl - bl / bs * bs) (bs / 2) with
        | .ok l => .ok ({ skip := (fs - bl) / bs, count := bl / bs, bs := bs } :: l)
        | .error e => .error e := by
  simp only [listBoundsLoop, if_neg hbl, if_neg hbs]
  by_cases h : bl / bs = 0
  · simp [h]
  · simp [h]

lemma pow_succ_div_two (j : Nat) : 2 ^ (j + 1) / 2 = 2 ^ j := by
  rw [pow_succ]
  exact Nat.mul_div_cancel _ two_pos

lemma listBoundsLoop_chain : ∀ (fuel k filesize bytes_left : Nat),
    2 ^ k < fuel → bytes_left ≤ filesize → 2 ^ k ∣ (filesize - bytes_left) →
    ∃ l, listBoundsLoop fuel filesize bytes_left (2 ^ k) = .ok l ∧
      chain l (filesize - bytes_left) filesize (k + 1) := by
  intro fuel
  induction fuel with
  | zero =>
    intro k fs bl h _ _
    exact absurd h (by omega)
  | succ fuel ih =>
    intro k fs bl hfuel hble hdvd
    by_cases hbl : bl = 0
    · subst hbl
      refine ⟨[], by simp [listBoundsLoop], ?_⟩
      simp only [chain]
      omega
    · have hbspos : (0 : Nat) < 2 ^ k := pow_pos two_pos k
      have hdm := Nat.div_add_mod bl (2 ^ k)
      rw [Nat.mul_comm] at hdm
      rw [listBoundsLoop_step fuel fs bl (2 ^ k) hbl hbspos.ne']
      by_cases hb0 : bl / 2 ^ k = 0
      · rw [if_pos hb0]
        have hlt : bl < 2 ^ k := (Nat.div_eq_zero_iff hbspos).mp hb0
        cases k with
        | zero =>
          rw [pow_zero] at hlt
          omega
        | succ j =>
          rw [pow_succ_div_two]
          have hfuel' : 2 ^ j < fuel := by
            have : 2 ^ j < 2 ^ (j + 1) := Nat.pow_lt_pow_right (by omega) (by omega)
            omega
          have hdvd' : 2 ^ j ∣ (fs - bl) :=
            dvd_trans (pow_dvd_pow 2 (by omega)) hdvd
          obtain ⟨l, hl, hc⟩ := ih j fs bl hfuel' hble hdvd'
          exact ⟨l, hl, chain_mono hc (by omega)⟩
      · rw [if_neg hb0]
        have hpos : 0 < bl / 2 ^ k := Nat.pos_of_ne_zero hb0
        have hmul_le : bl / 2 ^ k * 2 ^ k ≤ bl := Nat.div_mul_le_self bl (2 ^ k)
        have hsub : bl - bl / 2 ^ k * 2 ^ k = bl % 2 ^ k := by omega
        rw [hsub]
        cases k with
        | zero =>
          have hfpos : 0 < fuel := by
            rw [pow_zero] at hfuel
            omega
          simp only [pow_zero, Nat.div_one, Nat.mod_one]
          rw [listBoundsLoop_zero_left fuel fs _ hfpos]
          refine ⟨_, rfl, ?_⟩
          simp only [chain]
          refine ⟨0, by omega, (pow_zero 2).symm, by omega, by omega, ?_⟩
          omega
        | succ j =>
          rw [pow_succ_div_two]
          have hfuel' : 2 ^ j < fuel := by
            have : 2 ^ j < 2 ^ (j + 1) := Nat.pow_lt_pow_right (by omega) (by omega)
            omega
          have hmodle : bl % 2 ^ (j + 1) ≤ fs :=
            le_trans (Nat.mod_le _ _) hble
          have heq : fs - bl % 2 ^ (j + 1) = (fs - bl) + bl / 2 ^ (j + 1) * 2 ^ (j + 1) := by
            omega
          have hdvd' : 2 ^ j ∣ (fs - bl % 2 ^ (j + 1)) := by
            rw [heq]
            exact dvd_add (dvd_trans (pow_dvd_pow 2 (by omega)) hdvd)
              ((pow_dvd_pow 2 (by omega : j ≤ j + 1)).mul_left _)
          obtain ⟨l, hl, hc⟩ := ih j fs (bl % 2 ^ (j + 1)) hfuel' hmodle hdvd'
          rw [hl]
          refine ⟨_, rfl, ?_⟩
          simp only [chain]
          refine ⟨j + 1, by omega, rfl, Nat.div_mul_cancel hdvd, hpos, ?_⟩
          have heq2 : (fs - bl) + bl / 2 ^ (j + 1) * 2 ^ (j + 1) = fs - bl % 2 ^ (j + 1) := by
            omega
          rw [heq2]
          exact hc

/-! ## `listBounds`: top-level structure -/

lemma listBounds_unfold_pow (filesize k : Nat) :
    listBounds filesize (2 ^ k) =
      if filesize < 2 ^ k then .ok [{ skip := 0, count := 1, bs := filesize }]
      else listBoundsLoop (2 ^ k + 1) filesize filesize (2 ^ k) := by
  unfold listBounds
  rw [isPowerOf2_pow]

lemma listBounds_pow_spec (filesize k : Nat) :
    ∃ l, listBounds filesize (2 ^ k) = .ok l ∧
      ((filesize < 2 ^ k ∧ l = [{ skip := 0, count := 1, bs := filesize }]) ∨
        (2 ^ k ≤ filesize ∧ chain l 0 filesize (k + 1))) := by
  rw [listBounds_unfold_pow]
  by_cases h : filesize < 2 ^ k
  · exact ⟨_, by rw [if_pos h], Or.inl ⟨h, rfl⟩⟩
  · rw [if_neg h]
    obtain ⟨l, hl, hc⟩ := listBoundsLoop_chain (2 ^ k + 1) k filesize filesize
      (by omega) le_rfl (by rw [Nat.sub_self]; exact dvd_zero _)
    rw [Nat.sub_self] at hc
    exact ⟨l, hl, Or.inr ⟨by omega, hc⟩⟩

lemma listBounds_not_pow (filesize mbs : Nat) (hpos : 0 < mbs) (hnp : ∀ k, mbs ≠ 2 ^ k) :
    listBounds filesize mbs = .error .invalidConfiguration := by
  unfold listBounds
  rw [isPowerOf2_natCast mbs hpos]
  have hfalse : (2 ^ intLog2 mbs == mbs) = false := by
    rw [beq_eq_false_iff_ne]
    intro h
    exact hnp (intLog2 mbs) h.symm
  rw [hfalse]

/-! ## The read loop of `shaPath` -/

lemma readLoop_eq : ∀ (fuel bs : Nat) (s : List Nat), 0 < bs → s.length < fuel →
    readLoop fuel bs s = s := by
  intro fuel
  induction fuel with
  | zero =>
    intro bs s _ hlen
    exact absurd hlen (Nat.not_lt_zero _)
  | succ fuel ih =>
    intro bs s hbs hlen
    cases s with
    | nil => rfl
    | cons x xs =>
      simp only [readLoop, if_neg hbs.ne']
      rw [ih bs (List.drop bs (x :: xs)) hbs ?_]
      · exact List.take_append_drop bs (x :: xs)
      · rw [List.length_drop]
        simp only [List.length_cons] at hlen ⊢
        omega

lemma readAll_eq (bs : Nat) (s : List Nat) (hbs : 0 < bs) : readAll bs s = s :=
  readLoop_eq _ bs s hbs (by omega)

lemma hashInput_ddRead (data : List Nat) (l : List Bound) {a b k : Nat}
    (h : chain l a b k) :
    hashInput (ddRead data) l = (data.drop a).take (b - a) := by
  unfold hashInput
  rw [← chain_flatten data l h]
  congr 1
  apply List.map_congr_left
  intro d hd
  obtain ⟨⟨j, _, hbs⟩, _, _, _⟩ := chain_mem l h d hd
  exact readAll_eq _ _ (hbs ▸ pow_pos two_pos j)

lemma shaPath_ok {source : Bound → List Nat} {fs mbs : Nat} {l : List Bound}
    (h : listBounds fs mbs = .ok l) :
    shaPath source fs mbs = .ok (hashInput source l) := by
  unfold shaPath
  rw [h]

/-! ## Claim theorems -/

/-- C1: for every byte sequence, hashing it directly with SHA-256 and hashing
it via the plan-and-stream pipeline (plan for the sequence's length and a
power-of-two max block size, each descriptor's bytes fed in plan order into
one incremental hash state) produce identical digests, provided the byte
source supplies the declared bytes.  The digest is `sha256` (an arbitrary
function, standing for the hash) of the byte stream fed to the hash state,
so identical streams give identical digests. -/
theorem shaPath_roundtrip (sha256 : List Nat → List Nat) (data : List Nat) (k : Nat) :
    (shaPath (ddRead data) data.length (2 ^ k)).map sha256 = .ok (sha256 data) := by
  obtain ⟨l, hl, hspec⟩ := listBounds_pow_spec data.length k
  have hstream : hashInput (ddRead data) l = data := by
    rcases hspec with ⟨hlt, rfl⟩ | ⟨hge, hc⟩
    · by_cases hd : data = []
      · subst hd
        rfl
      · have hlen : 0 < data.length := List.length_pos.mpr hd
        unfold hashInput
        simp only [List.map_cons, List.map_nil, List.flatten_cons, List.flatten_nil,
          List.append_nil]
        unfold ddRead
        simp only [zero_mul, List.drop_zero, one_mul]
        rw [List.take_length]
        exact readAll_eq _ _ hlen
    · rw [hashInput_ddRead data l hc]
      simp
  rw [shaPath_ok hl, hstream]
  rfl

/-- C2: for every non-negative total length and power-of-two max block size,
the byte ranges covered by the plan's descriptors are pairwise disjoint and
their union is exactly the interval `[0, total_length)`. -/
theorem listBounds_exact_cover (filesize max_blocksize : Nat) (l : List Bound)
    (hpow : ∃ k, max_blocksize = 2 ^ k)
    (hok : listBounds filesize max_blocksize = .ok l) :
    (⋃ d ∈ l, coverSet d) = Set.Ico 0 filesize ∧
      l.Pairwise fun d e => Disjoint (coverSet d) (coverSet e) := by
  obtain ⟨k, rfl⟩ := hpow
  obtain ⟨l', hl', hspec⟩ := listBounds_pow_spec filesize k
  rw [hok] at hl'
  injection hl' with he
  subst he
  rcases hspec with ⟨hlt, rfl⟩ | ⟨hge, hc⟩
  · constructor
    · rw [biUnion_cons]
      simp [coverSet]
    · simp
  · exact ⟨chain_union l hc, chain_disjoint l hc⟩

/-- C2 witness: the coverage property evaluated on the concrete plan for
`(5, 4)`. -/
theorem listBounds_exact_cover_witness :
    (∃ k, (4 : Nat) = 2 ^ k) ∧
      listBounds 5 4 = .ok [⟨0, 1, 4⟩, ⟨4, 1, 1⟩] ∧
      ((⋃ d ∈ ([⟨0, 1, 4⟩, ⟨4, 1, 1⟩] : List Bound), coverSet d) = Set.Ico 0 5 ∧
        ([⟨0, 1, 4⟩, ⟨4, 1, 1⟩] : List Bound).Pairwise
          fun d e => Disjoint (coverSet d) (coverSet e)) :=
  ⟨⟨2, rfl⟩, rfl, listBounds_exact_cover 5 4 _ ⟨2, rfl⟩ rfl⟩

/-- C3: plan descriptors are sorted by strictly increasing byte offset, block
sizes are non-increasing with each subsequent one dividing the previous, and
each descriptor's byte offset (its true stream position, which equals the
recorded `skip * bs`) is an exact multiple of its block size. -/
theorem listBounds_sorted_aligned (filesize max_blocksize : Nat) (l : List Bound)
    (hpow : ∃ k, max_blocksize = 2 ^ k)
    (hok : listBounds filesize max_blocksize = .ok l) :
    l.Pairwise (fun d e => d.skip * d.bs < e.skip * e.bs) ∧
      l.Pairwise (fun d e => e.bs ∣ d.bs ∧ e.bs ≤ d.bs) ∧
      offsets 0 l = (l.map fun d => d.skip * d.bs) ∧
      ∀ d ∈ l, d.bs ∣ d.skip * d.bs := by
  obtain ⟨k, rfl⟩ := hpow
  obtain ⟨l', hl', hspec⟩ := listBounds_pow_spec filesize k
  rw [hok] at hl'
  injection hl' with he
  subst he
  rcases hspec with ⟨hlt, rfl⟩ | ⟨hge, hc⟩
  · refine ⟨by simp, by simp, ?_, fun d _ => dvd_mul_left d.bs d.skip⟩
    simp [offsets]
  · exact ⟨chain_pairwise_lt l hc, chain_pairwise_bs l hc, chain_offsets l hc,
      fun d _ => dvd_mul_left d.bs d.skip⟩

/-- C3 witness: ordering, divisibility and alignment evaluated on the
concrete plan for `(5, 4)`. -/
theorem listBounds_sorted_aligned_witness :
    (∃ k, (4 : Nat) = 2 ^ k) ∧
      listBounds 5 4 = .ok [⟨0, 1, 4⟩, ⟨4, 1, 1⟩] ∧
      (([⟨0, 1, 4⟩, ⟨4, 1, 1⟩] : List Bound).Pairwise
          (fun d e => d.skip * d.bs < e.skip * e.bs) ∧
        ([⟨0, 1, 4⟩, ⟨4, 1, 1⟩] : List Bound).Pairwise
          (fun d e => e.bs ∣ d.bs ∧ e.bs ≤ d.bs) ∧
        offsets 0 [⟨0, 1, 4⟩, ⟨4, 1, 1⟩] =
          (([⟨0, 1, 4⟩, ⟨4, 1, 1⟩] : List Bound).map fun d => d.skip * d.bs) ∧
        ∀ d ∈ ([⟨0, 1, 4⟩, ⟨4, 1, 1⟩] : List Bound), d.bs ∣ d.skip * d.bs) :=
  ⟨⟨2, rfl⟩, rfl, listBounds_sorted_aligned 5 4 _ ⟨2, rfl⟩ rfl⟩

/-- C4: under the exact (real-logarithm) model of `int(math.log(x, 2))`,
`isPowerOf2 x` returns `True` exactly when the binary representation of `x`
has exactly one set bit, and the doctest values hold.  (The running code
computes the logarithm in IEEE-754 double arithmetic, which breaks this
property at `x = 2 ^ 2955`; see the module conventions.) -/
theorem isPowerOf2_one_bit :
    (∀ x : Int, isPowerOf2 x = .ok true ↔ popcount x.toNat = 1) ∧
      isPowerOf2 2 = .ok true ∧ isPowerOf2 1024 = .ok true ∧
      isPowerOf2 1025 = .ok false := by
  refine ⟨?_, rfl, rfl, rfl⟩
  intro x
  by_cases hx : x ≤ 0
  · rw [isPowerOf2, if_pos hx]
    constructor
    · intro h
      exact Except.noConfusion h
    · intro h
      rw [Int.toNat_of_nonpos hx] at h
      simp [popcount, popcountFuel] at h
  · push_neg at hx
    have hpos : 0 < x.toNat := by omega
    rw [isPowerOf2, if_neg (by omega : ¬x ≤ 0)]
    rw [popcount_eq_one_iff, ← pow2_eq_self_iff x.toNat hpos]
    simp only [Except.ok.injEq, beq_iff_eq]

/-- C5 counterexample: `0` does not have exactly one set bit (so it is not a
power of two), yet `plan(5, 0)` fails with the math-domain error of
`math.log`, not with `InvalidConfiguration`. -/
theorem listBounds_zero_escapes_invalid_config :
    popcount 0 ≠ 1 ∧ listBounds 5 0 = .error .mathDomain ∧
      (Except.error .mathDomain : Except PlanError (List Bound)) ≠
        .error .invalidConfiguration :=
  ⟨by decide, rfl, by simp⟩

/-- C5 (amended): for every total length and every positive max block size
that is not a power of two (does not have exactly one set bit), `plan`
fails with `InvalidConfiguration` and produces no plan; a max block size of
`0` instead aborts with the math-domain error. -/
theorem listBounds_invalid_config (filesize max_blocksize : Nat)
    (hpos : 0 < max_blocksize) (hnp : popcount max_blocksize ≠ 1) :
    listBounds filesize max_blocksize = .error .invalidConfiguration := by
  apply listBounds_not_pow filesize max_blocksize hpos
  intro k hk
  exact hnp ((popcount_eq_one_iff _).mpr ⟨k, hk⟩)

/-- C5 witness: the amended statement evaluated at `(5, 3)`. -/
theorem listBounds_invalid_config_witness :
    0 < 3 ∧ popcount 3 ≠ 1 ∧ listBounds 5 3 = .error .invalidConfiguration :=
  ⟨by decide, by decide, listBounds_invalid_config 5 3 (by decide) (by decide)⟩

/-- C6 counterexample: for the plan of `(2, 2)` (one descriptor asking for 2
bytes) and a byte source that supplies only one byte before the declared
length is exhausted, `shaPath` raises nothing and produces a digest — of the
one byte it received. -/
theorem shaPath_short_read_still_digests :
    listBounds 2 2 = .ok [⟨0, 1, 2⟩] ∧
      shaPath (fun _ => [7]) 2 2 = .ok [7] :=
  ⟨rfl, rfl⟩

/-- C6 (amended): the streaming hasher has no failure path of its own: for
every byte source and every power-of-two max block size, `shaPath` produces
a digest — it hashes exactly the bytes the source returns, even when the
source supplies fewer bytes than the descriptors declare. -/
theorem shaPath_never_fails (source : Bound → List Nat) (filesize k : Nat) :
    ∃ stream, shaPath source filesize (2 ^ k) = .ok stream := by
  obtain ⟨l, hl, _⟩ := listBounds_pow_spec filesize k
  exact ⟨_, shaPath_ok hl⟩

/-- C7: whenever the total length is strictly below the power-of-two max
block size (including length 0), the plan is the single descriptor
`{skip := 0, count := 1, bs := total_length}`. -/
theorem listBounds_small (filesize k : Nat) (h : filesize < 2 ^ k) :
    listBounds filesize (2 ^ k) = .ok [{ skip := 0, count := 1, bs := filesize }] := by
  rw [listBounds_unfold_pow, if_pos h]

/-- C7 witness: the doctest case `plan(9, 1024)`. -/
theorem listBounds_small_witness :
    9 < 2 ^ 10 ∧ listBounds 9 (2 ^ 10) = .ok [{ skip := 0, count := 1, bs := 9 }] :=
  ⟨by decide, listBounds_small 9 10 (by decide)⟩

/-- C8: for every total length and power-of-two max block size, the plan has
at most `log2(max_block_size) + 1` descriptors, however large the total
length is. -/
theorem listBounds_length_le (filesize max_blocksize : Nat) (l : List Bound)
    (hpow : ∃ k, max_blocksize = 2 ^ k)
    (hok : listBounds filesize max_blocksize = .ok l) :
    l.length ≤ intLog2 max_blocksize + 1 := by
  obtain ⟨k, rfl⟩ := hpow
  rw [intLog2_pow]
  obtain ⟨l', hl', hspec⟩ := listBounds_pow_spec filesize k
  rw [hok] at hl'
  injection hl' with he
  subst he
  rcases hspec with ⟨_, rfl⟩ | ⟨_, hc⟩
  · simp
  · exact Nat.le_trans (chain_length l hc) le_rfl

/-- C8 witness: the plan for `(5, 4)` has 2 descriptors, at most
`log2(4) + 1 = 3`. -/
theorem listBounds_length_le_witness :
    (∃ k, (4 : Nat) = 2 ^ k) ∧ listBounds 5 4 = .ok [⟨0, 1, 4⟩, ⟨4, 1, 1⟩] ∧
      ([⟨0, 1, 4⟩, ⟨4, 1, 1⟩] : List Bound).length ≤ intLog2 4 + 1 :=
  ⟨⟨2, rfl⟩, rfl, listBounds_length_le 5 4 _ ⟨2, rfl⟩ rfl⟩

/-- C9: the halving loop aborts with an error whenever the block size has
dropped below 1 while bytes remain (in the source this surfaces as the
division failing once `blocksize` reaches 0), and under the power-of-two
precondition that branch is never reached: the loop terminates normally,
with all bytes consumed, for every input. -/
theorem listBoundsLoop_guard_and_exit :
    (∀ fuel filesize bytes_left, 0 < bytes_left →
        listBoundsLoop fuel filesize bytes_left 0 = .error .blockSizeExhausted) ∧
      ∀ filesize k, ∃ l, listBounds filesize (2 ^ k) = .ok l := by
  constructor
  · intro fuel fs bl hbl
    cases fuel with
    | zero => rfl
    | succ f => simp [listBoundsLoop, Nat.pos_iff_ne_zero.mp hbl]
  · intro fs k
    obtain ⟨l, hl, _⟩ := listBounds_pow_spec fs k
    exact ⟨l, hl⟩

/-- C9 witness: the guard fires on a concrete malformed state, and the loop
exits normally on the concrete valid input `(6, 2)`. -/
theorem listBoundsLoop_guard_and_exit_witness :
    0 < 5 ∧ listBoundsLoop 3 7 5 0 = .error .blockSizeExhausted ∧
      ∃ l, listBounds 6 (2 ^ 1) = .ok l :=
  ⟨by decide, listBoundsLoop_guard_and_exit.1 3 7 5 (by decide),
    listBoundsLoop_guard_and_exit.2 6 1⟩

/-- C10: for input `0` and any negative input, `isPowerOf2` does not return
`False` but raises the math-domain error of `math.log`, so `plan` with a max
block size of `0` aborts with that error rather than with
`InvalidConfiguration`. -/
theorem isPowerOf2_nonpos_math_domain :
    (∀ x : Int, x ≤ 0 → isPowerOf2 x = .error .mathDomain) ∧
      (∀ filesize, listBounds filesize 0 = .error .mathDomain) ∧
      PlanError.mathDomain ≠ PlanError.invalidConfiguration := by
  refine ⟨?_, ?_, by decide⟩
  · intro x hx
    rw [isPowerOf2, if_pos hx]
  · intro fs
    rfl

/-- C10 witness: evaluated at `x = -3` and `plan(7, 0)`. -/
theorem isPowerOf2_nonpos_math_domain_witness :
    (-3 : Int) ≤ 0 ∧ isPowerOf2 (-3) = .error .mathDomain ∧
      listBounds 7 0 = .error .mathDomain :=
  ⟨by decide, isPowerOf2_nonpos_math_domain.1 (-3) (by decide),
    isPowerOf2_nonpos_math_domain.2.1 7⟩

end Shaall
